import Mathlib

/-!
Shallow embedding of the `cacheutil` package (TTL `MemoryCache` and `LRUCache`).

Modelling conventions:
- Go's `map[string]X` is an association list `List (String × X)` whose keys stay
  distinct along every reachable state; `insertAssoc` replaces in place or
  appends (Go map assignment), `eraseAssoc` removes the entry (Go `delete`),
  `lookupAssoc` is map indexing.
- `time.Time` and `time.Duration` are `Int` instants/durations passed
  explicitly: each operation that reads the clock in Go (`time.Now()`) takes a
  `now : Int` argument.  Go's zero `time.Time` sentinel (`IsZero`) is
  `Option.none` in `cacheItem.expiresAt`; `a.After(b)` is strict `a > b`.
- The locking in the source only serializes operations; the embedding models
  the serialized (atomic) semantics of each operation as a pure state function.
- The LRU doubly linked list with sentinel head/tail nodes is the list
  `order : List (String × α)` of its interior nodes from `head.next` (most
  recently used) to `tail.prev` (least recently used); the Go map
  `c.items : map[string]*lruNode` holds pointers to nodes, modelled as its
  domain `mapKeys : List String` (the pointed-to node is recovered by key
  lookup in `order`, which is faithful on states where map and list agree —
  the coherence invariant proved below).
- Methods that return `error` in Go always return `nil` there; the embedding
  drops the error component and returns only the new state (and result).
-/

/-- Go map indexing `l[k]`: first (hence, under distinct keys, only) binding. -/
def lookupAssoc {β : Type} (l : List (String × β)) (k : String) : Option β :=
  match l with
  | [] => none
  | p :: rest => if p.1 = k then some p.2 else lookupAssoc rest k

/-- Go map assignment `l[k] = v`: replace the binding in place, else append. -/
def insertAssoc {β : Type} (l : List (String × β)) (k : String) (v : β) :
    List (String × β) :=
  match l with
  | [] => [(k, v)]
  | p :: rest => if p.1 = k then (k, v) :: rest else p :: insertAssoc rest k v

/-- Go map `delete(l, k)`: drop the binding for `k`. -/
def eraseAssoc {β : Type} (l : List (String × β)) (k : String) :
    List (String × β) :=
  match l with
  | [] => []
  | p :: rest => if p.1 = k then rest else p :: eraseAssoc rest k

/-- Drop the first occurrence of `k` from a list of keys (Go `delete` on the
domain view of a map; under distinct keys the first occurrence is the only
one). -/
def removeKey (l : List String) (k : String) : List String :=
  match l with
  | [] => []
  | a :: rest => if a = k then rest else a :: removeKey rest k

/-- Model of `cacheItem`: stored value plus expiry instant; `none` models the zero
`time.Time` sentinel (no expiry). -/
structure cacheItem (α : Type) where
  value : α
  expiresAt : Option Int
deriving DecidableEq

/-- Model of the check `!item.expiresAt.IsZero() && now.After(item.expiresAt)`. -/
def cacheItem.expiredAt {α : Type} (item : cacheItem α) (now : Int) : Bool :=
  match item.expiresAt with
  | none => false
  | some t => now > t

/-- Model of `MemoryCache`: the `items` map (the mutex only serializes operations). -/
structure MemoryCache (α : Type) where
  items : List (String × cacheItem α)
deriving DecidableEq

/-- Model of `NewMemoryCache` (the spawned cleanup goroutine is modelled by explicit
`MemoryCache.cleanup` applications). -/
def NewMemoryCache {α : Type} : MemoryCache α := ⟨[]⟩

/-- Model of `MemoryCache.Set`: set `expiresAt` to now plus ttl when positive, else the zero
sentinel; overwrite the binding. Returns the new state (Go error is `nil`). -/
def MemoryCache.Set {α : Type} (c : MemoryCache α) (key : String) (value : α)
    (ttl : Int) (now : Int) : MemoryCache α :=
  let expiresAt : Option Int := if ttl > 0 then some (now + ttl) else none
  ⟨insertAssoc c.items key ⟨value, expiresAt⟩⟩

/-- Model of `MemoryCache.Get`: result and (unchanged, as in the source: the read path
holds only the shared lock and never writes) state. -/
def MemoryCache.Get {α : Type} (c : MemoryCache α) (key : String) (now : Int) :
    Option α × MemoryCache α :=
  match lookupAssoc c.items key with
  | none => (none, c)
  | some item =>
      if item.expiredAt now then (none, c) else (some item.value, c)

/-- Model of `MemoryCache.Delete`. -/
def MemoryCache.Delete {α : Type} (c : MemoryCache α) (key : String) :
    MemoryCache α :=
  ⟨eraseAssoc c.items key⟩

/-- Model of `MemoryCache.Clear`. -/
def MemoryCache.Clear {α : Type} (_c : MemoryCache α) : MemoryCache α := ⟨[]⟩

/-- Model of `MemoryCache.Size`: the Go map length. -/
def MemoryCache.Size {α : Type} (c : MemoryCache α) : Nat := c.items.length

/-- One pass of the `cleanup` goroutine's loop body at instant `now`: delete
every entry with `!expiresAt.IsZero() && now.After(expiresAt)`. -/
def MemoryCache.cleanup {α : Type} (c : MemoryCache α) (now : Int) :
    MemoryCache α :=
  ⟨c.items.filter (fun p => !p.2.expiredAt now)⟩

/-- Model of `LRUCache`: capacity, the domain of the `items` map, and the linked list
interior from most- to least-recently-used. -/
structure LRUCache (α : Type) where
  capacity : Nat
  mapKeys : List String
  order : List (String × α)
deriving DecidableEq

/-- Keys of the recency sequence, head (MRU) first. -/
def LRUCache.orderKeys {α : Type} (c : LRUCache α) : List String :=
  c.order.map Prod.fst

/-- Model of `NewLRUCache`: non-positive capacity falls back to the default `100`;
empty map, empty list (the sentinels link to each other). -/
def NewLRUCache {α : Type} (capacity : Int) : LRUCache α :=
  ⟨if capacity ≤ 0 then 100 else capacity.toNat, [], []⟩

/-- Model of `addToHead`: link a node right after the head sentinel. -/
def LRUCache.addToHead {α : Type} (c : LRUCache α) (key : String) (value : α) :
    LRUCache α :=
  { c with order := (key, value) :: c.order }

/-- Model of `removeNode`: unlink the node holding `key` from the list. -/
def LRUCache.removeNode {α : Type} (c : LRUCache α) (key : String) :
    LRUCache α :=
  { c with order := eraseAssoc c.order key }

/-- Model of `moveToHead`: remove then add to head (the node keeps its, possibly
just updated, value). -/
def LRUCache.moveToHead {α : Type} (c : LRUCache α) (key : String) (value : α) :
    LRUCache α :=
  (c.removeNode key).addToHead key value

/-- Model of `removeTail`: unlink `tail.prev` and return it.  On an empty interior the
Go code would unlink the head sentinel itself; that state is unreachable where
`removeTail` is called, and the model returns `none` leaving the list alone. -/
def LRUCache.removeTail {α : Type} (c : LRUCache α) :
    Option (String × α) × LRUCache α :=
  match c.order.getLast? with
  | none => (none, c)
  | some lastNode => (some lastNode, { c with order := c.order.dropLast })

/-- Model of `LRUCache.Set`: update-and-promote an existing key, else insert at the
head and, when the map has grown past capacity, evict the tail.  The `ttl`
argument is accepted but never read, exactly as in the source. -/
def LRUCache.Set {α : Type} (c : LRUCache α) (key : String) (value : α)
    (_ttl : Int) : LRUCache α :=
  if key ∈ c.mapKeys then
    c.moveToHead key value
  else
    let c1 : LRUCache α :=
      { (c.addToHead key value) with mapKeys := key :: c.mapKeys }
    if c1.mapKeys.length > c1.capacity then
      match c1.removeTail with
      | (some tailNode, c2) =>
          { c2 with mapKeys := removeKey c2.mapKeys tailNode.1 }
      | (none, c2) => c2
    else c1

/-- Model of `LRUCache.Get`: on a hit, promote the node to the head and return its
value; the map pointer dereference `node.value` is the `order` lookup (sound
on coherent states). -/
def LRUCache.Get {α : Type} (c : LRUCache α) (key : String) :
    Option α × LRUCache α :=
  if key ∈ c.mapKeys then
    match lookupAssoc c.order key with
    | some v => (some v, c.moveToHead key v)
    | none => (none, c)
  else (none, c)

/-- Model of `LRUCache.Delete`: unlink the node and delete the map binding, if any. -/
def LRUCache.Delete {α : Type} (c : LRUCache α) (key : String) : LRUCache α :=
  if key ∈ c.mapKeys then
    { (c.removeNode key) with mapKeys := removeKey c.mapKeys key }
  else c

/-- Model of `LRUCache.Clear`: fresh map, sentinels re-linked to each other. -/
def LRUCache.Clear {α : Type} (c : LRUCache α) : LRUCache α :=
  { c with mapKeys := [], order := [] }

/-- Model of `LRUCache.Size`: the Go map length. -/
def LRUCache.Size {α : Type} (c : LRUCache α) : Nat := c.mapKeys.length

/-- One client-visible LRU operation. -/
inductive LRUOp (α : Type) where
  | set (key : String) (value : α) (ttl : Int)
  | get (key : String)
  | del (key : String)
  | clear
deriving DecidableEq

/-- Apply one operation (the result of `Get` is discarded, its state kept). -/
def LRUCache.applyOp {α : Type} (c : LRUCache α) : LRUOp α → LRUCache α
  | .set k v t => c.Set k v t
  | .get k => (c.Get k).2
  | .del k => c.Delete k
  | .clear => c.Clear

/-- Run a sequence of operations left to right. -/
def LRUCache.runOps {α : Type} (c : LRUCache α) (ops : List (LRUOp α)) :
    LRUCache α :=
  ops.foldl LRUCache.applyOp c

/-- Map/list coherence: both key collections are duplicate-free and hold the
same keys (no dangling map pointer, no unlisted node, no key twice in the
sequence). -/
def LRUCache.coherent {α : Type} (c : LRUCache α) : Prop :=
  c.mapKeys.Nodup ∧ c.orderKeys.Nodup ∧
    c.mapKeys ⊆ c.orderKeys ∧ c.orderKeys ⊆ c.mapKeys

/-- Rewrite an operation script so every `set` carries ttl 0. -/
def LRUOp.withZeroTTL {α : Type} : LRUOp α → LRUOp α
  | .set k v _ => .set k v 0
  | .get k => .get k
  | .del k => .del k
  | .clear => .clear

/-- Concrete TTL-cache state holding one entry that expires at instant 50. -/
def sampleTTL : MemoryCache Nat := ⟨[("a", ⟨7, some 50⟩)]⟩

/-- Concrete LRU state at full capacity 2: key b most recently used, key a
least recently used (as produced by Set a, then Set b, on a fresh cache). -/
def sampleLRU : LRUCache Nat := ⟨2, ["b", "a"], [("b", 2), ("a", 1)]⟩

/-! ### Association-list and key-list lemmas -/

theorem keys_eraseAssoc {β : Type} (l : List (String × β)) (k : String) :
    (eraseAssoc l k).map Prod.fst = removeKey (l.map Prod.fst) k := by
  induction l with
  | nil => rfl
  | cons p rest ih =>
    simp only [eraseAssoc, removeKey, List.map_cons]
    split <;> simp_all

theorem mem_of_mem_removeKey {l : List String} {k a : String}
    (h : a ∈ removeKey l k) : a ∈ l := by
  induction l with
  | nil => simp [removeKey] at h
  | cons b rest ih =>
    simp only [removeKey] at h
    split at h
    · exact List.mem_cons_of_mem _ h
    · rcases List.mem_cons.mp h with h1 | h2
      · exact h1 ▸ List.mem_cons_self _ _
      · exact List.mem_cons_of_mem _ (ih h2)

theorem mem_removeKey_of_ne {l : List String} {k a : String}
    (ha : a ∈ l) (hne : a ≠ k) : a ∈ removeKey l k := by
  induction l with
  | nil => simp at ha
  | cons b rest ih =>
    simp only [removeKey]
    rcases List.mem_cons.mp ha with h1 | h2
    · subst h1
      split
      · next hb => exact absurd hb hne
      · exact List.mem_cons_self _ _
    · split
      · exact h2
      · exact List.mem_cons_of_mem _ (ih h2)

theorem nodup_removeKey {l : List String} (k : String) (h : l.Nodup) :
    (removeKey l k).Nodup := by
  induction l with
  | nil => simp [removeKey]
  | cons b rest ih =>
    simp only [removeKey]
    rcases List.nodup_cons.mp h with ⟨hb, hrest⟩
    split
    · exact hrest
    · exact List.nodup_cons.mpr
        ⟨fun hmem => hb (mem_of_mem_removeKey hmem), ih hrest⟩

theorem not_mem_removeKey_self {l : List String} (k : String) (h : l.Nodup) :
    k ∉ removeKey l k := by
  induction l with
  | nil => simp [removeKey]
  | cons b rest ih =>
    simp only [removeKey]
    rcases List.nodup_cons.mp h with ⟨hb, hrest⟩
    split
    · next heq => exact heq ▸ hb
    · next hne =>
      intro hmem
      rcases List.mem_cons.mp hmem with h1 | h2
      · exact hne h1.symm
      · exact ih hrest h2

theorem length_removeKey_of_mem {l : List String} {k : String} (h : k ∈ l) :
    (removeKey l k).length + 1 = l.length := by
  induction l with
  | nil => simp at h
  | cons b rest ih =>
    simp only [removeKey]
    split
    · simp
    · next hne =>
      have hk : k ∈ rest := by
        rcases List.mem_cons.mp h with h1 | h2
        · exact absurd h1.symm hne
        · exact h2
      simpa using ih hk

theorem lookup_insertAssoc_self {β : Type} (l : List (String × β)) (k : String)
    (v : β) : lookupAssoc (insertAssoc l k v) k = some v := by
  induction l with
  | nil => simp [insertAssoc, lookupAssoc]
  | cons p rest ih =>
    simp only [insertAssoc]
    split
    · simp [lookupAssoc]
    · next hne => simp only [lookupAssoc]; rw [if_neg hne]; exact ih

theorem insertAssoc_insertAssoc_self {β : Type} (l : List (String × β))
    (k : String) (v : β) :
    insertAssoc (insertAssoc l k v) k v = insertAssoc l k v := by
  induction l with
  | nil => simp [insertAssoc]
  | cons p rest ih =>
    simp only [insertAssoc]
    split
    · simp [insertAssoc]
    · next hne =>
      simp only [insertAssoc]
      rw [if_neg hne, ih]

theorem mem_keys_of_lookup_some {β : Type} {l : List (String × β)} {k : String}
    {v : β} (h : lookupAssoc l k = some v) : k ∈ l.map Prod.fst := by
  induction l with
  | nil => simp [lookupAssoc] at h
  | cons p rest ih =>
    simp only [lookupAssoc] at h
    split at h
    · next heq => simp [← heq]
    · simpa using Or.inr (ih h)

theorem lookup_isSome_of_mem_keys {β : Type} {l : List (String × β)}
    {k : String} (h : k ∈ l.map Prod.fst) : ∃ v, lookupAssoc l k = some v := by
  induction l with
  | nil => simp at h
  | cons p rest ih =>
    rw [List.map_cons] at h
    by_cases heq : p.1 = k
    · exact ⟨p.2, by simp only [lookupAssoc]; rw [if_pos heq]⟩
    · have h2 : k ∈ rest.map Prod.fst := by
        rcases List.mem_cons.mp h with h1 | h2
        · exact absurd h1.symm heq
        · exact h2
      obtain ⟨v, hv⟩ := ih h2
      exact ⟨v, by simp only [lookupAssoc]; rw [if_neg heq]; exact hv⟩

theorem lookup_filter_keep {β : Type} {l : List (String × β)} {k : String}
    {item : β} (p : String × β → Bool) (hlk : lookupAssoc l k = some item)
    (hp : p (k, item) = true) : lookupAssoc (l.filter p) k = some item := by
  induction l with
  | nil => simp [lookupAssoc] at hlk
  | cons q rest ih =>
    simp only [lookupAssoc] at hlk
    split at hlk
    · next heq =>
      obtain rfl : q.2 = item := Option.some.inj hlk
      have hq : q = (k, q.2) := by
        cases q; simp_all
      rw [List.filter_cons, hq, if_pos (by simpa using hp)]
      simp [lookupAssoc]
    · next hne =>
      rw [List.filter_cons]
      split
      · simp only [lookupAssoc]
        rw [if_neg hne]
        exact ih hlk
      · exact ih hlk

theorem lookup_filter_of_none {β : Type} {l : List (String × β)} {k : String}
    (p : String × β → Bool) (hlk : lookupAssoc l k = none) :
    lookupAssoc (l.filter p) k = none := by
  induction l with
  | nil => simp [lookupAssoc]
  | cons q rest ih =>
    simp only [lookupAssoc] at hlk
    split at hlk
    · exact absurd hlk (by simp)
    · next hne =>
      rw [List.filter_cons]
      split
      · simp only [lookupAssoc]
        rw [if_neg hne]
        exact ih hlk
      · exact ih hlk

theorem lookup_none_of_not_mem_keys {β : Type} {l : List (String × β)}
    {k : String} (h : k ∉ l.map Prod.fst) : lookupAssoc l k = none := by
  induction l with
  | nil => rfl
  | cons p rest ih =>
    rw [List.map_cons] at h
    have h1 : ¬ p.1 = k := fun he => h (List.mem_cons.mpr (Or.inl he.symm))
    have h2 : k ∉ rest.map Prod.fst := fun hm => h (List.mem_cons_of_mem _ hm)
    simp only [lookupAssoc]
    rw [if_neg h1]
    exact ih h2

theorem lookup_filter_drop {β : Type} {l : List (String × β)} {k : String}
    {item : β} (p : String × β → Bool) (hnd : (l.map Prod.fst).Nodup)
    (hlk : lookupAssoc l k = some item) (hp : p (k, item) = false) :
    lookupAssoc (l.filter p) k = none := by
  induction l with
  | nil => simp [lookupAssoc] at hlk
  | cons q rest ih =>
    rw [List.map_cons] at hnd
    rcases List.nodup_cons.mp hnd with ⟨hqk, hrest⟩
    simp only [lookupAssoc] at hlk
    split at hlk
    · next heq =>
      obtain rfl : q.2 = item := Option.some.inj hlk
      have hq : q = (k, q.2) := by cases q; simp_all
      rw [List.filter_cons, if_neg (by rw [hq, hp]; simp)]
      apply lookup_none_of_not_mem_keys
      intro hm
      rcases List.mem_map.mp hm with ⟨pr, hpr, hpk⟩
      exact (heq ▸ hqk)
        (List.mem_map.mpr ⟨pr, (List.mem_filter.mp hpr).1, hpk⟩)
    · next hne =>
      rw [List.filter_cons]
      split
      · simp only [lookupAssoc]
        rw [if_neg hne]
        exact ih hrest hlk
      · exact ih hrest hlk

theorem lookup_append_single {β : Type} {l : List (String × β)}
    {x : String × β} {k : String} {v : β} (hne : k ≠ x.1)
    (h : lookupAssoc (l ++ [x]) k = some v) : lookupAssoc l k = some v := by
  induction l with
  | nil =>
    simp only [List.nil_append, lookupAssoc] at h
    rw [if_neg (fun he => hne he.symm)] at h
    simp [lookupAssoc] at h
  | cons p rest ih =>
    simp only [List.cons_append, lookupAssoc] at h ⊢
    split at h
    · next heq => rw [if_pos heq]; exact h
    · next hn => rw [if_neg hn]; exact ih h

/-! ### LRU structural lemmas -/

theorem moveToHead_capacity {α : Type} (c : LRUCache α) (k : String) (v : α) :
    (c.moveToHead k v).capacity = c.capacity := rfl

theorem moveToHead_mapKeys {α : Type} (c : LRUCache α) (k : String) (v : α) :
    (c.moveToHead k v).mapKeys = c.mapKeys := rfl

theorem moveToHead_order {α : Type} (c : LRUCache α) (k : String) (v : α) :
    (c.moveToHead k v).order = (k, v) :: eraseAssoc c.order k := rfl

theorem moveToHead_orderKeys {α : Type} (c : LRUCache α) (k : String) (v : α) :
    (c.moveToHead k v).orderKeys = k :: removeKey c.orderKeys k := by
  show ((k, v) :: eraseAssoc c.order k).map Prod.fst = _
  rw [List.map_cons, keys_eraseAssoc]
  rfl

theorem coherent_mem_iff {α : Type} {c : LRUCache α} (h : c.coherent)
    (k : String) : k ∈ c.mapKeys ↔ k ∈ c.orderKeys :=
  ⟨fun hm => h.2.2.1 hm, fun hm => h.2.2.2 hm⟩

theorem coherent_length_eq {α : Type} {c : LRUCache α} (h : c.coherent) :
    c.mapKeys.length = c.orderKeys.length :=
  (((List.perm_ext_iff_of_nodup h.1 h.2.1).mpr
    fun a => coherent_mem_iff h a)).length_eq

theorem coherent_promote {α : Type} {c : LRUCache α} (h : c.coherent)
    {k : String} (hk : k ∈ c.mapKeys) (v : α) : (c.moveToHead k v).coherent := by
  obtain ⟨ndm, ndo, hmo, hom⟩ := h
  refine ⟨ndm, ?_, ?_, ?_⟩
  · rw [moveToHead_orderKeys]
    exact List.nodup_cons.mpr
      ⟨not_mem_removeKey_self k ndo, nodup_removeKey k ndo⟩
  · rw [moveToHead_orderKeys, moveToHead_mapKeys]
    intro a ha
    by_cases hak : a = k
    · exact hak ▸ List.mem_cons_self _ _
    · exact List.mem_cons_of_mem _ (mem_removeKey_of_ne (hmo ha) hak)
  · rw [moveToHead_orderKeys, moveToHead_mapKeys]
    intro a ha
    rcases List.mem_cons.mp ha with h1 | h2
    · exact h1 ▸ hk
    · exact hom (mem_of_mem_removeKey h2)

theorem Set_eq_of_mem {α : Type} (c : LRUCache α) {k : String} (v : α) (t : Int)
    (hk : k ∈ c.mapKeys) : c.Set k v t = c.moveToHead k v := by
  unfold LRUCache.Set
  rw [if_pos hk]

theorem Set_eq_of_not_mem_le {α : Type} (c : LRUCache α) {k : String} (v : α)
    (t : Int) (hk : k ∉ c.mapKeys) (hle : c.mapKeys.length + 1 ≤ c.capacity) :
    c.Set k v t = ⟨c.capacity, k :: c.mapKeys, (k, v) :: c.order⟩ := by
  unfold LRUCache.Set
  rw [if_neg hk]
  simp only [LRUCache.addToHead]
  rw [if_neg (by simpa using Nat.not_lt.mpr hle)]

theorem Set_eq_of_not_mem_gt {α : Type} (c : LRUCache α) {k : String} (v : α)
    (t : Int) (hk : k ∉ c.mapKeys) (hgt : c.capacity < c.mapKeys.length + 1) :
    c.Set k v t =
      ⟨c.capacity,
       removeKey (k :: c.mapKeys)
         (((k, v) :: c.order).getLast (List.cons_ne_nil _ _)).1,
       ((k, v) :: c.order).dropLast⟩ := by
  unfold LRUCache.Set
  rw [if_neg hk]
  simp only [LRUCache.addToHead, LRUCache.removeTail]
  rw [if_pos (by simpa using hgt),
    List.getLast?_eq_getLast ((k, v) :: c.order) (List.cons_ne_nil _ _)]

theorem keys_decomp {α : Type} (c : LRUCache α) (h : c.order ≠ []) :
    c.orderKeys = (c.order.dropLast.map Prod.fst) ++ [(c.order.getLast h).1] := by
  conv_lhs => rw [LRUCache.orderKeys, ← List.dropLast_append_getLast h]
  simp

theorem coherent_evict {α : Type} {d : LRUCache α} (h : d.coherent)
    (hne : d.order ≠ []) :
    (⟨d.capacity, removeKey d.mapKeys (d.order.getLast hne).1,
      d.order.dropLast⟩ : LRUCache α).coherent ∧
    (removeKey d.mapKeys (d.order.getLast hne).1).length + 1 =
      d.mapKeys.length := by
  obtain ⟨ndm, ndo, hmo, hom⟩ := h
  set tl := (d.order.getLast hne).1 with htl
  have hdec := keys_decomp d hne
  have ndo' := hdec ▸ ndo
  rcases List.nodup_append.mp ndo' with ⟨ndDrop, _, hdisj⟩
  have htlo : tl ∈ d.orderKeys := by
    rw [hdec]
    exact List.mem_append_right _ (List.mem_singleton.mpr rfl)
  have htlm : tl ∈ d.mapKeys := hom htlo
  have hkeysDrop :
      (⟨d.capacity, removeKey d.mapKeys tl, d.order.dropLast⟩ :
        LRUCache α).orderKeys = d.order.dropLast.map Prod.fst := rfl
  refine ⟨⟨nodup_removeKey tl ndm, ?_, ?_, ?_⟩, length_removeKey_of_mem htlm⟩
  · rw [hkeysDrop]; exact ndDrop
  · rw [hkeysDrop]
    intro a ha
    have ham : a ∈ d.mapKeys := mem_of_mem_removeKey ha
    have hane : a ≠ tl := by
      intro he
      exact not_mem_removeKey_self tl ndm (he ▸ ha)
    have hao : a ∈ d.orderKeys := hmo ham
    rw [hdec] at hao
    rcases List.mem_append.mp hao with h1 | h2
    · exact h1
    · exact absurd (List.mem_singleton.mp h2) hane
  · rw [hkeysDrop]
    intro a ha
    have hao : a ∈ d.orderKeys := by
      rw [hdec]; exact List.mem_append_left _ ha
    have hane : a ≠ tl := fun he =>
      hdisj ha (List.mem_singleton.mpr he)
    exact mem_removeKey_of_ne (hom hao) hane

theorem coherent_Set {α : Type} {c : LRUCache α} (h : c.coherent) (k : String)
    (v : α) (t : Int) : (c.Set k v t).coherent := by
  by_cases hk : k ∈ c.mapKeys
  · rw [Set_eq_of_mem c v t hk]
    exact coherent_promote h hk v
  · have hko : k ∉ c.orderKeys := fun hm => hk ((coherent_mem_iff h k).mpr hm)
    obtain ⟨ndm, ndo, hmo, hom⟩ := h
    have hc1 : (⟨c.capacity, k :: c.mapKeys, (k, v) :: c.order⟩ :
        LRUCache α).coherent := by
      refine ⟨List.nodup_cons.mpr ⟨hk, ndm⟩, ?_, ?_, ?_⟩
      · show (k :: c.orderKeys).Nodup
        exact List.nodup_cons.mpr ⟨hko, ndo⟩
      · show k :: c.mapKeys ⊆ k :: c.orderKeys
        exact List.cons_subset_cons k hmo
      · show k :: c.orderKeys ⊆ k :: c.mapKeys
        exact List.cons_subset_cons k hom
    by_cases hcap : c.mapKeys.length + 1 ≤ c.capacity
    · rw [Set_eq_of_not_mem_le c v t hk hcap]
      exact hc1
    · rw [Set_eq_of_not_mem_gt c v t hk (Nat.not_le.mp hcap)]
      exact (coherent_evict hc1 (List.cons_ne_nil _ _)).1

theorem Size_Set_le {α : Type} {c : LRUCache α} (h : c.coherent)
    (hle : c.Size ≤ c.capacity) (k : String) (v : α) (t : Int) :
    (c.Set k v t).Size ≤ c.capacity := by
  by_cases hk : k ∈ c.mapKeys
  · rw [Set_eq_of_mem c v t hk]
    exact hle
  · by_cases hcap : c.mapKeys.length + 1 ≤ c.capacity
    · rw [Set_eq_of_not_mem_le c v t hk hcap]
      exact hcap
    · rw [Set_eq_of_not_mem_gt c v t hk (Nat.not_le.mp hcap)]
      have hko : k ∉ c.orderKeys := fun hm => hk ((coherent_mem_iff h k).mpr hm)
      obtain ⟨ndm, ndo, hmo, hom⟩ := h
      have hc1 : (⟨c.capacity, k :: c.mapKeys, (k, v) :: c.order⟩ :
          LRUCache α).coherent := by
        refine ⟨List.nodup_cons.mpr ⟨hk, ndm⟩, ?_, ?_, ?_⟩
        · show (k :: c.orderKeys).Nodup
          exact List.nodup_cons.mpr ⟨hko, ndo⟩
        · show k :: c.mapKeys ⊆ k :: c.orderKeys
          exact List.cons_subset_cons k hmo
        · show k :: c.orderKeys ⊆ k :: c.mapKeys
          exact List.cons_subset_cons k hom
      have hlen := (coherent_evict hc1 (List.cons_ne_nil _ _)).2
      have h2 : (removeKey (k :: c.mapKeys)
          (((k, v) :: c.order).getLast (List.cons_ne_nil _ _)).1).length + 1 =
          c.mapKeys.length + 1 := hlen
      have h3 : (removeKey (k :: c.mapKeys)
          (((k, v) :: c.order).getLast (List.cons_ne_nil _ _)).1).length =
          c.mapKeys.length := Nat.add_right_cancel h2
      show (removeKey (k :: c.mapKeys)
          (((k, v) :: c.order).getLast (List.cons_ne_nil _ _)).1).length ≤
          c.capacity
      rw [h3]
      exact hle

theorem length_removeKey_le (l : List String) (k : String) :
    (removeKey l k).length ≤ l.length := by
  induction l with
  | nil => simp [removeKey]
  | cons b rest ih =>
    simp only [removeKey]
    split
    · simp
    · simpa using Nat.succ_le_succ ih

theorem Get_state_eq {α : Type} (c : LRUCache α) (k : String) :
    (c.Get k).2 = c ∨
      ∃ v, k ∈ c.mapKeys ∧ lookupAssoc c.order k = some v ∧
        (c.Get k).2 = c.moveToHead k v := by
  unfold LRUCache.Get
  by_cases hk : k ∈ c.mapKeys
  · rw [if_pos hk]
    cases hl : lookupAssoc c.order k with
    | none => left; rfl
    | some v => right; exact ⟨v, hk, rfl, rfl⟩
  · left; rw [if_neg hk]

theorem coherent_Get {α : Type} {c : LRUCache α} (h : c.coherent)
    (k : String) : ((c.Get k).2).coherent := by
  rcases Get_state_eq c k with he | ⟨v, hk, _, he⟩
  · rw [he]; exact h
  · rw [he]; exact coherent_promote h hk v

theorem Get_mapKeys {α : Type} (c : LRUCache α) (k : String) :
    ((c.Get k).2).mapKeys = c.mapKeys := by
  rcases Get_state_eq c k with he | ⟨v, _, _, he⟩
  · rw [he]
  · rw [he, moveToHead_mapKeys]

theorem Get_capacity {α : Type} (c : LRUCache α) (k : String) :
    ((c.Get k).2).capacity = c.capacity := by
  rcases Get_state_eq c k with he | ⟨v, _, _, he⟩
  · rw [he]
  · rw [he, moveToHead_capacity]

theorem Delete_eq_of_mem {α : Type} (c : LRUCache α) {k : String}
    (hk : k ∈ c.mapKeys) :
    c.Delete k =
      ⟨c.capacity, removeKey c.mapKeys k, eraseAssoc c.order k⟩ := by
  unfold LRUCache.Delete
  rw [if_pos hk]
  rfl

theorem Delete_eq_of_not_mem {α : Type} (c : LRUCache α) {k : String}
    (hk : k ∉ c.mapKeys) : c.Delete k = c := by
  unfold LRUCache.Delete
  rw [if_neg hk]

theorem coherent_Delete {α : Type} {c : LRUCache α} (h : c.coherent)
    (k : String) : (c.Delete k).coherent := by
  by_cases hk : k ∈ c.mapKeys
  · rw [Delete_eq_of_mem c hk]
    obtain ⟨ndm, ndo, hmo, hom⟩ := h
    have hkeys : (⟨c.capacity, removeKey c.mapKeys k, eraseAssoc c.order k⟩ :
        LRUCache α).orderKeys = removeKey c.orderKeys k := by
      show (eraseAssoc c.order k).map Prod.fst = _
      rw [keys_eraseAssoc]
      rfl
    refine ⟨nodup_removeKey k ndm, ?_, ?_, ?_⟩
    · rw [hkeys]; exact nodup_removeKey k ndo
    · rw [hkeys]
      intro a ha
      have hane : a ≠ k := fun he => not_mem_removeKey_self k ndm (he ▸ ha)
      exact mem_removeKey_of_ne (hmo (mem_of_mem_removeKey ha)) hane
    · rw [hkeys]
      intro a ha
      have hane : a ≠ k := fun he => not_mem_removeKey_self k ndo (he ▸ ha)
      exact mem_removeKey_of_ne (hom (mem_of_mem_removeKey ha)) hane
  · rw [Delete_eq_of_not_mem c hk]
    exact h

theorem coherent_Clear {α : Type} (c : LRUCache α) : (c.Clear).coherent := by
  refine ⟨List.nodup_nil, ?_, ?_, ?_⟩
  · show (([] : List (String × α)).map Prod.fst).Nodup
    simp
  · show ([] : List String) ⊆ _
    simp
  · show (([] : List (String × α)).map Prod.fst) ⊆ ([] : List String)
    simp

theorem Set_capacity {α : Type} (c : LRUCache α) (k : String) (v : α)
    (t : Int) : (c.Set k v t).capacity = c.capacity := by
  by_cases hk : k ∈ c.mapKeys
  · rw [Set_eq_of_mem c v t hk, moveToHead_capacity]
  · by_cases hcap : c.mapKeys.length + 1 ≤ c.capacity
    · rw [Set_eq_of_not_mem_le c v t hk hcap]
    · rw [Set_eq_of_not_mem_gt c v t hk (Nat.not_le.mp hcap)]

theorem applyOp_inv {α : Type} {c : LRUCache α} (h : c.coherent)
    (hle : c.Size ≤ c.capacity) (op : LRUOp α) :
    (c.applyOp op).coherent ∧ (c.applyOp op).Size ≤ (c.applyOp op).capacity ∧
      (c.applyOp op).capacity = c.capacity := by
  cases op with
  | set k v t =>
    exact ⟨coherent_Set h k v t,
      (Set_capacity c k v t).symm ▸ Size_Set_le h hle k v t,
      Set_capacity c k v t⟩
  | get k =>
    refine ⟨coherent_Get h k, ?_, Get_capacity c k⟩
    show ((c.Get k).2).mapKeys.length ≤ ((c.Get k).2).capacity
    rw [Get_mapKeys, Get_capacity]
    exact hle
  | del k =>
    refine ⟨coherent_Delete h k, ?_, ?_⟩
    · show (c.Delete k).Size ≤ (c.Delete k).capacity
      by_cases hk : k ∈ c.mapKeys
      · rw [Delete_eq_of_mem c hk]
        exact le_trans (length_removeKey_le c.mapKeys k) hle
      · rw [Delete_eq_of_not_mem c hk]
        exact hle
    · show (c.Delete k).capacity = c.capacity
      by_cases hk : k ∈ c.mapKeys
      · rw [Delete_eq_of_mem c hk]
      · rw [Delete_eq_of_not_mem c hk]
  | clear => exact ⟨coherent_Clear c, Nat.zero_le _, rfl⟩

theorem runOps_inv {α : Type} {c : LRUCache α} (h : c.coherent)
    (hle : c.Size ≤ c.capacity) (ops : List (LRUOp α)) :
    (c.runOps ops).coherent ∧ (c.runOps ops).Size ≤ (c.runOps ops).capacity ∧
      (c.runOps ops).capacity = c.capacity := by
  induction ops generalizing c with
  | nil => exact ⟨h, hle, rfl⟩
  | cons op rest ih =>
    have h1 := applyOp_inv h hle op
    have h2 := ih h1.1 (h1.2.2 ▸ h1.2.1)
    exact ⟨h2.1, h2.2.1, h2.2.2.trans h1.2.2⟩

theorem new_coherent {α : Type} (cap : Int) :
    (NewLRUCache cap : LRUCache α).coherent :=
  coherent_Clear (NewLRUCache cap)

/-! ### TTL cache lemmas -/

theorem cleanup_keeps_no_expiry {α : Type} {c : MemoryCache α} {k : String}
    {v : α} (h : lookupAssoc c.items k = some ⟨v, none⟩) (now : Int) :
    lookupAssoc (c.cleanup now).items k = some ⟨v, none⟩ :=
  lookup_filter_keep _ h (by simp [cacheItem.expiredAt])

theorem cleanups_keep_no_expiry {α : Type} {c : MemoryCache α} {k : String}
    {v : α} (h : lookupAssoc c.items k = some ⟨v, none⟩) (times : List Int) :
    lookupAssoc (times.foldl MemoryCache.cleanup c).items k =
      some ⟨v, none⟩ := by
  induction times generalizing c with
  | nil => exact h
  | cons t rest ih => exact ih (cleanup_keeps_no_expiry h t)

theorem length_le_one_of_nodup_of_all_eq {l : List String} (hnd : l.Nodup)
    {x : String} (h : ∀ a ∈ l, a = x) : l.length ≤ 1 := by
  cases l with
  | nil => simp
  | cons a rest =>
    cases rest with
    | nil => simp
    | cons b rest2 =>
      exfalso
      have ha := h a (List.mem_cons_self _ _)
      have hb := h b (List.mem_cons_of_mem _ (List.mem_cons_self _ _))
      rcases List.nodup_cons.mp hnd with ⟨hna, _⟩
      exact hna (List.mem_cons.mpr (Or.inl (ha.trans hb.symm)))

theorem dropLast_cons_of_ne_nil {β : Type} (a : β) {l : List β} (h : l ≠ []) :
    (a :: l).dropLast = a :: l.dropLast := by
  cases l with
  | nil => exact absurd rfl h
  | cons b m => rfl

theorem removeKey_cons_of_ne {l : List String} {a k : String} (h : ¬ a = k) :
    removeKey (a :: l) k = a :: removeKey l k := by
  simp [removeKey, h]

theorem not_mem_keys_dropLast {β : Type} {l : List (String × β)} (h : l ≠ [])
    (hnd : (l.map Prod.fst).Nodup) :
    (l.getLast h).1 ∉ l.dropLast.map Prod.fst := by
  have hd := List.dropLast_append_getLast h
  rw [← hd, List.map_append, List.nodup_append] at hnd
  intro hmem
  exact hnd.2.2 hmem (by simp)

/-! ### Claim theorems -/

/-- C3: on the TTL cache, `Get` of a present entry whose `expiresAt` is set
and strictly in the past returns not-found, leaves the state unchanged, keeps
the expired entry in the map, and `Size` still counts it (deletion is deferred
to the sweep). -/
theorem memory_get_expired_frame {α : Type} (c : MemoryCache α) (k : String)
    (now : Int) (item : cacheItem α) (t : Int)
    (hlk : lookupAssoc c.items k = some item)
    (hexp : item.expiresAt = some t) (hpast : t < now) :
    (c.Get k now).1 = none ∧ (c.Get k now).2 = c ∧
      lookupAssoc ((c.Get k now).2).items k = some item ∧
      ((c.Get k now).2).Size = c.Size := by
  have hb : item.expiredAt now = true := by
    simp only [cacheItem.expiredAt, hexp]
    exact decide_eq_true_iff.mpr hpast
  unfold MemoryCache.Get
  rw [hlk]
  dsimp only
  rw [if_pos hb]
  exact ⟨rfl, rfl, hlk, rfl⟩

/-- C4: a TTL-cache entry stored with `ttl ≤ 0` gets no expiry instant, and
no number of sweep passes at any instants removes it: it stays in the map and
`Get` keeps returning `(v, true)` at every later read instant. -/
theorem memory_zero_ttl_never_expires {α : Type} (c : MemoryCache α)
    (k : String) (v : α) (ttl now : Int) (httl : ttl ≤ 0)
    (times : List Int) (now' : Int) :
    lookupAssoc ((times.foldl MemoryCache.cleanup
        (c.Set k v ttl now)).items) k = some ⟨v, none⟩ ∧
    ((times.foldl MemoryCache.cleanup (c.Set k v ttl now)).Get k now').1 =
      some v := by
  have hset : lookupAssoc (c.Set k v ttl now).items k = some ⟨v, none⟩ := by
    show lookupAssoc (insertAssoc c.items k
      ⟨v, if ttl > 0 then some (now + ttl) else none⟩) k = some ⟨v, none⟩
    rw [if_neg (by omega)]
    exact lookup_insertAssoc_self _ _ _
  have hall := cleanups_keep_no_expiry hset times
  refine ⟨hall, ?_⟩
  unfold MemoryCache.Get
  rw [hall]
  rfl

/-- C6: one sweep pass deletes exactly the entries whose `expiresAt` is set
and strictly in the past; unexpired entries and entries with no expiry keep
their stored item, and nothing else appears. -/
theorem memory_cleanup_deletes_exactly_expired {α : Type} (c : MemoryCache α)
    (now : Int) (hnd : (c.items.map Prod.fst).Nodup) (k : String) :
    lookupAssoc (c.cleanup now).items k =
      match lookupAssoc c.items k with
      | none => none
      | some item => if item.expiredAt now then none else some item := by
  cases hlk : lookupAssoc c.items k with
  | none => exact lookup_filter_of_none _ hlk
  | some item =>
    dsimp only
    by_cases hexp : item.expiredAt now = true
    · rw [if_pos hexp]
      exact lookup_filter_drop _ hnd hlk (by simp [hexp])
    · rw [if_neg hexp]
      exact lookup_filter_keep _ hlk (by simp only [Bool.not_eq_true] at hexp
                                         simp [hexp])

/-- C10: TTL expiry comparisons are strict: an entry whose `expiresAt` equals
the read or sweep instant is still live (`Get` returns the value, the sweep
keeps it), and it is reported or swept as expired exactly when the instant is
strictly past `expiresAt`. -/
theorem memory_expiry_boundary_strict {α : Type} (c : MemoryCache α)
    (k : String) (v : α) (t : Int)
    (hnd : (c.items.map Prod.fst).Nodup)
    (hlk : lookupAssoc c.items k = some ⟨v, some t⟩) :
    (c.Get k t).1 = some v ∧
    lookupAssoc (c.cleanup t).items k = some ⟨v, some t⟩ ∧
    (∀ now : Int, (c.Get k now).1 = none ↔ t < now) ∧
    (∀ now : Int, lookupAssoc (c.cleanup now).items k = none ↔ t < now) := by
  refine ⟨?_, ?_, ?_, ?_⟩
  · unfold MemoryCache.Get
    rw [hlk]
    dsimp only
    rw [if_neg (by simp [cacheItem.expiredAt])]
  · exact lookup_filter_keep _ hlk (by simp [cacheItem.expiredAt])
  · intro now
    unfold MemoryCache.Get
    rw [hlk]
    dsimp only
    by_cases hlt : t < now
    · rw [if_pos (by simp [cacheItem.expiredAt]; exact hlt)]
      simp [hlt]
    · rw [if_neg (by simp [cacheItem.expiredAt, hlt])]
      simp [hlt]
  · intro now
    by_cases hlt : t < now
    · have hd := lookup_filter_drop (fun p => !p.2.expiredAt now) hnd hlk
        (by simp [cacheItem.expiredAt]; exact hlt)
      simp [MemoryCache.cleanup, hd, hlt]
    · have hkeep := lookup_filter_keep (fun p => !p.2.expiredAt now) hlk
        (by simp [cacheItem.expiredAt, hlt])
      simp [MemoryCache.cleanup, hkeep, hlt]


/-- C7: the LRU cache never reads the `ttl` argument of `Set`: two calls
differing only in `ttl` produce identical states, and a whole operation
script gives the same final state when every ttl is replaced; no LRU
operation takes a clock instant at all, so entries never expire by time. -/
theorem lru_set_independent_of_ttl {α : Type} :
    (∀ (c : LRUCache α) (k : String) (v : α) (t1 t2 : Int),
        c.Set k v t1 = c.Set k v t2) ∧
    (∀ (c : LRUCache α) (ops : List (LRUOp α)),
        c.runOps ops = c.runOps (ops.map LRUOp.withZeroTTL)) := by
  constructor
  · intro c k v t1 t2
    rfl
  · intro c ops
    induction ops generalizing c with
    | nil => rfl
    | cons op rest ih =>
      have hop : c.applyOp op.withZeroTTL = c.applyOp op := by
        cases op <;> rfl
      show (c.applyOp op).runOps rest =
        (c.applyOp op.withZeroTTL).runOps (rest.map LRUOp.withZeroTTL)
      rw [hop]
      exact ih (c.applyOp op)

/-- C9: `NewLRUCache` with a non-positive capacity yields exactly the cache
built with the default capacity 100 (same state, hence same behaviour), and
its capacity field is 100; construction is total, never an error. -/
theorem new_lru_nonpositive_capacity_defaults {α : Type} (n : Int)
    (h : n ≤ 0) :
    (NewLRUCache n : LRUCache α) = NewLRUCache 100 ∧
    (NewLRUCache n : LRUCache α).capacity = 100 := by
  unfold NewLRUCache
  rw [if_pos h, if_neg (by norm_num)]
  exact ⟨by rfl, rfl⟩

/-- C1: every cache built by `NewLRUCache`, after any sequence of `Set`,
`Get`, `Delete`, `Clear`, has `Size` at most the configured capacity; and a
single `Set` on a coherent cache removes at most one key from the map. -/
theorem lru_size_bounded_and_set_evicts_at_most_one {α : Type} :
    (∀ (cap : Int) (ops : List (LRUOp α)),
      ((NewLRUCache cap : LRUCache α).runOps ops).Size ≤
        (NewLRUCache cap : LRUCache α).capacity) ∧
    (∀ c : LRUCache α, c.coherent → ∀ (k : String) (v : α) (t : Int),
      (c.mapKeys.filter
        (fun a => decide (a ∉ (c.Set k v t).mapKeys))).length ≤ 1) := by
  constructor
  · intro cap ops
    have h := runOps_inv (new_coherent cap) (Nat.zero_le _) ops
    exact h.2.2 ▸ h.2.1
  · intro c h k v t
    by_cases hk : k ∈ c.mapKeys
    · rw [Set_eq_of_mem c v t hk, moveToHead_mapKeys]
      rw [List.filter_eq_nil_iff.mpr (fun a ha => by simp [ha])]
      simp
    · by_cases hcap : c.mapKeys.length + 1 ≤ c.capacity
      · rw [Set_eq_of_not_mem_le c v t hk hcap]
        rw [List.filter_eq_nil_iff.mpr
          (fun a ha => by simp [List.mem_cons_of_mem _ ha])]
        simp
      · rw [Set_eq_of_not_mem_gt c v t hk (Nat.not_le.mp hcap)]
        apply length_le_one_of_nodup_of_all_eq (h.1.filter _)
        intro a ha
        rcases List.mem_filter.mp ha with ⟨ham, hpa⟩
        have hnot : a ∉ removeKey (k :: c.mapKeys)
            (((k, v) :: c.order).getLast (List.cons_ne_nil _ _)).1 :=
          of_decide_eq_true hpa
        by_contra hane
        exact hnot (mem_removeKey_of_ne (List.mem_cons_of_mem _ ham) hane)

/-- C5: `NewLRUCache` states reached by any operation sequence are coherent
(map keys and recency-sequence positions agree exactly, with no duplicates),
and each of `Set`, `Get`, `Delete`, `Clear` preserves coherence. -/
theorem lru_map_matches_sequence {α : Type} :
    (∀ (cap : Int) (ops : List (LRUOp α)),
        ((NewLRUCache cap : LRUCache α).runOps ops).coherent) ∧
    (∀ c : LRUCache α, c.coherent →
        (∀ (k : String) (v : α) (t : Int), (c.Set k v t).coherent) ∧
        (∀ k : String, ((c.Get k).2).coherent) ∧
        (∀ k : String, (c.Delete k).coherent) ∧ (c.Clear).coherent) := by
  constructor
  · intro cap ops
    exact (runOps_inv (new_coherent cap) (Nat.zero_le _) ops).1
  · intro c h
    exact ⟨fun k v t => coherent_Set h k v t, fun k => coherent_Get h k,
      fun k => coherent_Delete h k, coherent_Clear c⟩

theorem Set_head {α : Type} {c : LRUCache α} (h : c.coherent)
    (hcap : 1 ≤ c.capacity) (k : String) (v : α) (t : Int) :
    k ∈ (c.Set k v t).mapKeys ∧
    ∃ rest, (c.Set k v t).order = (k, v) :: rest := by
  by_cases hk : k ∈ c.mapKeys
  · rw [Set_eq_of_mem c v t hk]
    exact ⟨hk, eraseAssoc c.order k, rfl⟩
  · by_cases hcap2 : c.mapKeys.length + 1 ≤ c.capacity
    · rw [Set_eq_of_not_mem_le c v t hk hcap2]
      exact ⟨List.mem_cons_self _ _, c.order, rfl⟩
    · rw [Set_eq_of_not_mem_gt c v t hk (Nat.not_le.mp hcap2)]
      have hlen : c.mapKeys.length = c.orderKeys.length := coherent_length_eq h
      have hgt := Nat.not_le.mp hcap2
      have hml : 1 ≤ c.mapKeys.length := by omega
      have hone : c.order ≠ [] := by
        intro he
        have h0 : c.orderKeys = [] := by
          unfold LRUCache.orderKeys
          rw [he]
          rfl
        rw [h0] at hlen
        simp only [List.length_nil] at hlen
        omega
      have hLlast : ((k, v) :: c.order).getLast (List.cons_ne_nil _ _) =
          c.order.getLast hone := List.getLast_cons hone
      have htlo : (c.order.getLast hone).1 ∈ c.orderKeys := by
        rw [keys_decomp c hone]
        exact List.mem_append_right _ (List.mem_singleton.mpr rfl)
      have htlk : ¬ k = (c.order.getLast hone).1 := by
        intro he
        exact hk (h.2.2.2 (he ▸ htlo))
      constructor
      · show k ∈ removeKey (k :: c.mapKeys)
          (((k, v) :: c.order).getLast (List.cons_ne_nil _ _)).1
        rw [hLlast, removeKey_cons_of_ne htlk]
        exact List.mem_cons_self _ _
      · refine ⟨c.order.dropLast, ?_⟩
        show ((k, v) :: c.order).dropLast = (k, v) :: c.order.dropLast
        exact dropLast_cons_of_ne_nil _ hone

/-- C8: on both caches, two identical back-to-back `Set(k, v, ttl)` calls
leave `Size` exactly as after one call, and `Get k` right after still returns
`(v, true)` (for the LRU cache, on a coherent state with positive capacity). -/
theorem set_twice_idempotent_both_caches {α : Type} :
    (∀ (c : MemoryCache α) (k : String) (v : α) (ttl now : Int),
        ((c.Set k v ttl now).Set k v ttl now).Size = (c.Set k v ttl now).Size ∧
        (((c.Set k v ttl now).Set k v ttl now).Get k now).1 = some v) ∧
    (∀ c : LRUCache α, c.coherent → 1 ≤ c.capacity →
        ∀ (k : String) (v : α) (ttl : Int),
        ((c.Set k v ttl).Set k v ttl).Size = (c.Set k v ttl).Size ∧
        (((c.Set k v ttl).Set k v ttl).Get k).1 = some v) := by
  constructor
  · intro c k v ttl now
    have heq : (c.Set k v ttl now).Set k v ttl now = c.Set k v ttl now :=
      congrArg MemoryCache.mk (insertAssoc_insertAssoc_self c.items k _)
    rw [heq]
    refine ⟨rfl, ?_⟩
    have hlk : lookupAssoc (c.Set k v ttl now).items k =
        some ⟨v, if ttl > 0 then some (now + ttl) else none⟩ :=
      lookup_insertAssoc_self c.items k _
    unfold MemoryCache.Get
    rw [hlk]
    dsimp only
    rw [if_neg ?hcond]
    case hcond =>
      by_cases hpos : ttl > 0
      · rw [if_pos hpos]
        simp only [cacheItem.expiredAt]
        simp
        omega
      · rw [if_neg hpos]
        simp [cacheItem.expiredAt]
  · intro c h hcap k v ttl
    obtain ⟨hk1, rest1, hord1⟩ := Set_head h hcap k v ttl
    rw [Set_eq_of_mem _ v ttl hk1]
    refine ⟨?_, ?_⟩
    · show ((c.Set k v ttl).moveToHead k v).mapKeys.length =
        (c.Set k v ttl).mapKeys.length
      rw [moveToHead_mapKeys]
    · have hmem : k ∈ ((c.Set k v ttl).moveToHead k v).mapKeys := by
        rw [moveToHead_mapKeys]
        exact hk1
      have hlook : lookupAssoc ((c.Set k v ttl).moveToHead k v).order k =
          some v := by
        rw [moveToHead_order]
        simp [lookupAssoc]
      unfold LRUCache.Get
      rw [if_pos hmem, hlook]

/-- C2: on a coherent LRU cache at exactly its (positive) capacity, `Set`
with a brand-new key evicts precisely the tail of the recency sequence — the
entry least recently touched by `Set` or `Get` — removing it from both map
and sequence; the size stays at capacity, every other stored entry is still
retrievable with its value, and the new key reads back its value. -/
theorem lru_full_set_evicts_exactly_lru {α : Type} (c : LRUCache α)
    (h : c.coherent) (hfull : c.Size = c.capacity)
    (k : String) (hnew : k ∉ c.mapKeys) (v : α) (t : Int)
    (tl : String × α) (htl : c.order.getLast? = some tl) :
    tl.1 ∉ (c.Set k v t).mapKeys ∧ tl.1 ∉ (c.Set k v t).orderKeys ∧
    (c.Set k v t).Size = c.capacity ∧
    (∀ (kx : String) (vx : α), kx ≠ tl.1 →
        lookupAssoc c.order kx = some vx →
        ((c.Set k v t).Get kx).1 = some vx) ∧
    ((c.Set k v t).Get k).1 = some v := by
  have hone : c.order ≠ [] := by
    intro he
    rw [he] at htl
    simp at htl
  have hlenf : c.mapKeys.length = c.capacity := hfull
  have hgt : c.capacity < c.mapKeys.length + 1 := by omega
  have hset := Set_eq_of_not_mem_gt c v t hnew hgt
  have hgl : c.order.getLast hone = tl := by
    have hq := List.getLast?_eq_getLast c.order hone
    rw [hq] at htl
    exact Option.some.inj htl
  have hLlast : ((k, v) :: c.order).getLast (List.cons_ne_nil _ _) = tl :=
    (List.getLast_cons hone).trans hgl
  rw [hset, hLlast]
  have hko : k ∉ c.orderKeys := fun hm => hnew (h.2.2.2 hm)
  have htlo : tl.1 ∈ c.orderKeys := by
    rw [keys_decomp c hone, hgl]
    exact List.mem_append_right _ (List.mem_singleton.mpr rfl)
  have htlm : tl.1 ∈ c.mapKeys := h.2.2.2 htlo
  have htlk : ¬ tl.1 = k := fun he => hko (he ▸ htlo)
  have hndk : (k :: c.mapKeys).Nodup := List.nodup_cons.mpr ⟨hnew, h.1⟩
  have hdrop : ((k, v) :: c.order).dropLast = (k, v) :: c.order.dropLast :=
    dropLast_cons_of_ne_nil _ hone
  refine ⟨?_, ?_, ?_, ?_, ?_⟩
  · show tl.1 ∉ removeKey (k :: c.mapKeys) tl.1
    exact not_mem_removeKey_self _ hndk
  · show tl.1 ∉ (((k, v) :: c.order).dropLast).map Prod.fst
    rw [hdrop, List.map_cons]
    have hnd2 : (c.order.getLast hone).1 ∉ c.order.dropLast.map Prod.fst :=
      not_mem_keys_dropLast hone h.2.1
    rw [hgl] at hnd2
    intro hmem
    rcases List.mem_cons.mp hmem with h1 | h2
    · exact htlk h1
    · exact hnd2 h2
  · show (removeKey (k :: c.mapKeys) tl.1).length = c.capacity
    have hrl := length_removeKey_of_mem (List.mem_cons_of_mem k htlm)
    simp only [List.length_cons] at hrl
    omega
  · intro kx vx hnex hlkx
    have hkxo : kx ∈ c.orderKeys := mem_keys_of_lookup_some hlkx
    have hkxm : kx ∈ c.mapKeys := h.2.2.2 hkxo
    have hkxk : ¬ kx = k := fun he => hko (he ▸ hkxo)
    have hmemR : kx ∈ removeKey (k :: c.mapKeys) tl.1 :=
      mem_removeKey_of_ne (List.mem_cons_of_mem _ hkxm) hnex
    have hlkx2 : lookupAssoc (c.order.dropLast ++ [c.order.getLast hone]) kx =
        some vx := by
      rw [List.dropLast_append_getLast hone]
      exact hlkx
    have hlkdrop : lookupAssoc c.order.dropLast kx = some vx :=
      lookup_append_single (by rw [hgl]; exact hnex) hlkx2
    have hlookR : lookupAssoc ((k, v) :: c.order).dropLast kx = some vx := by
      rw [hdrop]
      simp only [lookupAssoc]
      rw [if_neg (fun he => hkxk he.symm)]
      exact hlkdrop
    unfold LRUCache.Get
    dsimp only
    rw [if_pos hmemR, hlookR]
  · have hmemK : k ∈ removeKey (k :: c.mapKeys) tl.1 := by
      rw [removeKey_cons_of_ne (fun he => htlk he.symm)]
      exact List.mem_cons_self _ _
    have hlookK : lookupAssoc ((k, v) :: c.order).dropLast k = some v := by
      rw [hdrop]
      simp [lookupAssoc]
    unfold LRUCache.Get
    dsimp only
    rw [if_pos hmemK, hlookK]

/-! ### Witnesses: the claim theorems applied at concrete inputs -/

/-- Witness for C3 at a one-entry cache read 60 ticks past expiry. -/
theorem memory_get_expired_frame_witness :
    lookupAssoc sampleTTL.items "a" = some ⟨7, some 50⟩ ∧
    ((sampleTTL.Get "a" 110).1 = none ∧ (sampleTTL.Get "a" 110).2 = sampleTTL ∧
      lookupAssoc ((sampleTTL.Get "a" 110).2).items "a" = some ⟨7, some 50⟩ ∧
      ((sampleTTL.Get "a" 110).2).Size = sampleTTL.Size) :=
  ⟨by decide, memory_get_expired_frame sampleTTL "a" 110 ⟨7, some 50⟩ 50
    (by decide) (by decide) (by decide)⟩

/-- Witness for C4: an entry stored with ttl 0 survives two sweeps and a
much later read. -/
theorem memory_zero_ttl_never_expires_witness :
    (0 : Int) ≤ 0 ∧
    (lookupAssoc (([60, 120].foldl MemoryCache.cleanup
        ((NewMemoryCache : MemoryCache Nat).Set "k" 5 0 0)).items) "k" =
          some ⟨5, none⟩ ∧
      (([60, 120].foldl MemoryCache.cleanup
        ((NewMemoryCache : MemoryCache Nat).Set "k" 5 0 0)).Get
          "k" 1000000).1 = some 5) :=
  ⟨by decide, memory_zero_ttl_never_expires NewMemoryCache "k" 5 0 0
    (by decide) [60, 120] 1000000⟩

/-- Witness for C6 at a sweep past the sample entry's expiry. -/
theorem memory_cleanup_deletes_exactly_expired_witness :
    (sampleTTL.items.map Prod.fst).Nodup ∧
    lookupAssoc (sampleTTL.cleanup 110).items "a" =
      match lookupAssoc sampleTTL.items "a" with
      | none => none
      | some item => if item.expiredAt 110 then none else some item :=
  ⟨by decide,
   memory_cleanup_deletes_exactly_expired sampleTTL 110 (by decide) "a"⟩

/-- Witness for C10 at the exact expiry boundary instant 50 and just past it. -/
theorem memory_expiry_boundary_strict_witness :
    (sampleTTL.items.map Prod.fst).Nodup ∧
    lookupAssoc sampleTTL.items "a" = some ⟨7, some 50⟩ ∧
    (sampleTTL.Get "a" 50).1 = some 7 ∧
    lookupAssoc (sampleTTL.cleanup 50).items "a" = some ⟨7, some 50⟩ ∧
    ((sampleTTL.Get "a" 51).1 = none ↔ (50 : Int) < 51) :=
  ⟨by decide, by decide,
   (memory_expiry_boundary_strict sampleTTL "a" 7 50 (by decide) (by decide)).1,
   (memory_expiry_boundary_strict sampleTTL "a" 7 50 (by decide) (by decide)).2.1,
   (memory_expiry_boundary_strict sampleTTL "a" 7 50
     (by decide) (by decide)).2.2.1 51⟩

/-- Witness for C1's per-Set bound at a concrete coherent full cache. -/
theorem lru_size_bounded_and_set_evicts_at_most_one_witness :
    sampleLRU.coherent ∧
    (sampleLRU.mapKeys.filter
      (fun a => decide (a ∉ (sampleLRU.Set "c" 3 0).mapKeys))).length ≤ 1 :=
  ⟨by unfold LRUCache.coherent; decide,
   (lru_size_bounded_and_set_evicts_at_most_one (α := Nat)).2 sampleLRU
     (by unfold LRUCache.coherent; decide) "c" 3 0⟩

/-- Witness for C5's preservation part at a concrete coherent cache. -/
theorem lru_map_matches_sequence_witness :
    sampleLRU.coherent ∧ (sampleLRU.Set "c" 3 0).coherent :=
  ⟨by unfold LRUCache.coherent; decide,
   ((lru_map_matches_sequence (α := Nat)).2 sampleLRU
     (by unfold LRUCache.coherent; decide)).1 "c" 3 0⟩

/-- Witness for C2: inserting c into the full sample cache evicts a, keeps b
readable with its value, and reads back c. -/
theorem lru_full_set_evicts_exactly_lru_witness :
    sampleLRU.coherent ∧ sampleLRU.Size = sampleLRU.capacity ∧
    "c" ∉ sampleLRU.mapKeys ∧
    ((sampleLRU.Set "c" 3 0).Get "b").1 = some 2 :=
  ⟨by unfold LRUCache.coherent; decide, by decide, by decide,
   (lru_full_set_evicts_exactly_lru sampleLRU
      (by unfold LRUCache.coherent; decide) (by decide) "c" (by decide) 3 0
      ("a", 1) (by decide)).2.2.2.1 "b" 2 (by decide) (by decide)⟩

/-- Witness for C8's LRU part at a concrete coherent cache. -/
theorem set_twice_idempotent_both_caches_witness :
    sampleLRU.coherent ∧ 1 ≤ sampleLRU.capacity ∧
    (((sampleLRU.Set "c" 9 0).Set "c" 9 0).Size =
        (sampleLRU.Set "c" 9 0).Size ∧
      (((sampleLRU.Set "c" 9 0).Set "c" 9 0).Get "c").1 = some 9) :=
  ⟨by unfold LRUCache.coherent; decide, by decide,
   (set_twice_idempotent_both_caches (α := Nat)).2 sampleLRU
     (by unfold LRUCache.coherent; decide) (by decide) "c" 9 0⟩

/-- Witness for C9 at the concrete requested capacity -5. -/
theorem new_lru_nonpositive_capacity_defaults_witness :
    (-5 : Int) ≤ 0 ∧ ((NewLRUCache (-5) : LRUCache Nat) = NewLRUCache 100 ∧
      (NewLRUCache (-5) : LRUCache Nat).capacity = 100) :=
  ⟨by decide, new_lru_nonpositive_capacity_defaults (-5) (by decide)⟩
